import Mathlib



/-!
Verification of the chunking, similarity/search, and background-task
components of the mysmartnotes code base, shallowly embedded in Lean.

Python strings processed character-wise by the chunker are modelled as
lists of characters, Python ints as integers, and floating-point numbers
as elements of an arbitrary linear ordered field (instantiable at the
real numbers).  A Python function that can raise is modelled as an
Option- or Except-valued function.
-/

/-! ### Background task management (src/app/utils/tasks.py)

The module-level dict `tasks_tracking` is modelled as an association
list with Python-dict semantics (assignment overwrites in place), the
thread pool's stream of accepted work as the list of task ids handed to
the executor, and wall-clock timestamps as a natural counter ticking on
every operation.  The body of `TaskManager._execute_task` is split into
its three observable mutations: setting "running", and the success and
failure finalizations. -/

/-! ### Embeddings and semantic search
(src/app/processing/search.py and src/app/processing/embeddings.py)

Floating-point numbers are modelled as the elements of an arbitrary
linear ordered field `K` (instantiable at the real numbers), and the
floating-point square root used by np.linalg.norm as an abstract
function parameter `sqrt`.  The embedding model is an abstract type
together with an encode function; `Except.error` models the exception
raised while loading it. -/

/-- Helper for `splitWs`: `acc` is the word currently being read. -/
def splitWsAux : List Char → List Char → List (List Char)
  | [], acc => if acc = [] then [] else [acc]
  | c :: rest, acc =>
    if c.isWhitespace then
      if acc = [] then splitWsAux rest [] else acc :: splitWsAux rest []
    else splitWsAux rest (acc ++ [c])

/-- Python str.split() with no separator argument: the maximal
whitespace-free runs of the string; leading, trailing and repeated
whitespace is dropped. -/
def splitWs (s : List Char) : List (List Char) :=
  splitWsAux s []

/-- Python str.strip(): drop leading and trailing whitespace. -/
def pyStrip (s : List Char) : List Char :=
  ((s.dropWhile Char.isWhitespace).reverse.dropWhile Char.isWhitespace).reverse

/-- Python range(0, n, step) for a natural stop n.  `none` models the
ValueError that range raises when step = 0; a negative step gives an
empty range since the stop is non-negative. -/
def pyRange0 (n : ℕ) (step : ℤ) : Option (List ℕ) :=
  if step = 0 then none
  else if step < 0 then some []
  else some ((List.range ((n + step.toNat - 1) / step.toNat)).map (· * step.toNat))

/-- Normalize one Python slice index against a list length: negative
indices count from the end and are clamped at 0, positive ones are
clamped at the length. -/
def pySliceIdx (i : ℤ) (n : ℕ) : ℕ :=
  if i < 0 then ((n : ℤ) + i).toNat else min i.toNat n

/-- Python l[start:stop] (step 1). -/
def pySlice {α : Type} (l : List α) (start stop : ℤ) : List α :=
  (l.take (pySliceIdx stop l.length)).drop (pySliceIdx start l.length)

/-- OCRProcessor.chunk_text from src/app/processing/ocr.py: split the text
into whitespace tokens, walk the token indices in steps of
chunk_size - overlap, join each window of chunk_size tokens with single
spaces, and keep the windows that are non-empty after stripping.
`none` models the ValueError raised by range when the stride is zero. -/
def chunk_text (text : List Char) (chunk_size overlap : ℤ) :
    Option (List (List Char)) :=
  let words := splitWs text
  (pyRange0 words.length (chunk_size - overlap)).map fun idxs =>
    (idxs.map fun (i : ℕ) =>
        List.intercalate [' '] (pySlice words i (i + chunk_size))).filter
      fun chunk => !(pyStrip chunk).isEmpty

/-- Python dict get: first binding of the key. -/
def dictGet {β : Type} : List (String × β) → String → Option β
  | [], _ => none
  | (k, v) :: rest, key => if k = key then some v else dictGet rest key

/-- Python dict assignment: overwrite in place, or append a new binding. -/
def dictSet {β : Type} : List (String × β) → String → β → List (String × β)
  | [], key, v => [(key, v)]
  | (k, w) :: rest, key, v =>
    if k = key then (key, v) :: rest else (k, w) :: dictSet rest key v

inductive TStatus where
  | pending
  | running
  | completed
  | failed
deriving DecidableEq

/-- One entry of `tasks_tracking`. -/
structure TaskRec where
  status : TStatus
  created_at : ℕ
  updated_at : ℕ
  result : Option String
  error : Option String
  progress : ℤ
deriving DecidableEq

/-- The shared mutable state of the tasks module: the tracking dict, the
ids handed to the thread-pool executor (in submission order), and the
clock supplying timestamps. -/
structure TaskState where
  tracking : List (String × TaskRec)
  queue : List String
  clock : ℕ
deriving DecidableEq

def initTaskState : TaskState := ⟨[], [], 0⟩

/-- The record written by TaskManager.submit_task before submitting. -/
def freshRec (t : ℕ) : TaskRec :=
  { status := .pending, created_at := t, updated_at := t,
    result := none, error := none, progress := 0 }

/-- TaskManager.submit_task: unconditionally writes a fresh pending
record under the id and hands `_execute_task` to the executor. -/
def submit_task (tid : String) (s : TaskState) : TaskState :=
  { tracking := dictSet s.tracking tid (freshRec s.clock),
    queue := s.queue ++ [tid],
    clock := s.clock + 1 }

/-- TaskManager.get_task_status: a plain dict get, never raising. -/
def get_task_status (tid : String) (s : TaskState) : Option TaskRec :=
  dictGet s.tracking tid

/-- The observable operations of the task module.  `execStart` is the
"running" write at the top of `_execute_task`; `execFinishOk` and
`execFinishErr` are its success and exception finalizations. -/
inductive TaskOp where
  | submit (tid : String)
  | execStart (tid : String)
  | execFinishOk (tid : String) (result : String)
  | execFinishErr (tid : String) (msg : String)
  | update_progress (tid : String) (p : ℤ)
  | getStatus (tid : String)
deriving DecidableEq

/-- One operation against the shared state; `none` models a KeyError
escaping the given code (only possible for an id never submitted). -/
def taskStep (s : TaskState) : TaskOp → Option TaskState
  | .submit tid => some (submit_task tid s)
  | .execStart tid =>
    match dictGet s.tracking tid with
    | none => none
    | some r => some { s with
        tracking := dictSet s.tracking tid { r with status := .running },
        clock := s.clock + 1 }
  | .execFinishOk tid res =>
    match dictGet s.tracking tid with
    | none => none
    | some r => some { s with
        tracking := dictSet s.tracking tid
          { r with status := .completed, result := some res, progress := 100 },
        clock := s.clock + 1 }
  | .execFinishErr tid msg =>
    match dictGet s.tracking tid with
    | none => none
    | some r => some { s with
        tracking := dictSet s.tracking tid
          { r with status := .failed, error := some msg, progress := 0 },
        clock := s.clock + 1 }
  | .update_progress tid p =>
    match dictGet s.tracking tid with
    | none => some { s with clock := s.clock + 1 }
    | some r => some { s with
        tracking := dictSet s.tracking tid
          { r with progress := min 100 (max 0 p), updated_at := s.clock },
        clock := s.clock + 1 }
  | .getStatus _ => some { s with clock := s.clock + 1 }

def runOpsFrom (s : TaskState) : List TaskOp → Option TaskState
  | [] => some s
  | op :: rest =>
    match taskStep s op with
    | none => none
    | some s2 => runOpsFrom s2 rest

def runOps (ops : List TaskOp) : Option TaskState :=
  runOpsFrom initTaskState ops

/-- Per-id lifecycle position used to express well-formed operation
sequences: each id is submitted at most once and undergoes at most one
start and one finish, in order. -/
inductive TaskPhase where
  | absent
  | submitted
  | started
  | finished
deriving DecidableEq

def phaseOf (m : List (String × TaskPhase)) (tid : String) : TaskPhase :=
  (dictGet m tid).getD .absent

def opOk (m : List (String × TaskPhase)) : TaskOp → Bool
  | .submit tid => phaseOf m tid == .absent
  | .execStart tid => phaseOf m tid == .submitted
  | .execFinishOk tid _ => phaseOf m tid == .started
  | .execFinishErr tid _ => phaseOf m tid == .started
  | .update_progress _ _ => true
  | .getStatus _ => true

def opNext (m : List (String × TaskPhase)) : TaskOp → List (String × TaskPhase)
  | .submit tid => dictSet m tid .submitted
  | .execStart tid => dictSet m tid .started
  | .execFinishOk tid _ => dictSet m tid .finished
  | .execFinishErr tid _ => dictSet m tid .finished
  | .update_progress _ _ => m
  | .getStatus _ => m

/-- Well-formed operation sequences: one submission and one execution
per id, with the execution following its submission — exactly the
sequences the pool itself produces when ids are never reused. -/
def validFrom (m : List (String × TaskPhase)) : List TaskOp → Bool
  | [] => true
  | op :: rest => opOk m op && validFrom (opNext m op) rest

def validOps (ops : List TaskOp) : Bool := validFrom [] ops

def phasesAfter (m : List (String × TaskPhase)) (ops : List TaskOp) :
    List (String × TaskPhase) :=
  ops.foldl opNext m

/-- Record shape at each lifecycle position: at most one of result and
error is ever set, and the status matches the position. -/
def PhaseShape : TaskPhase → TaskRec → Prop
  | .absent, _ => False
  | .submitted, r => r.status = .pending ∧ r.result = none ∧ r.error = none
  | .started, r => r.status = .running ∧ r.result = none ∧ r.error = none
  | .finished, r =>
    (r.status = .completed ∧ r.result ≠ none ∧ r.error = none) ∨
    (r.status = .failed ∧ r.result = none ∧ r.error ≠ none)

def RecShape (p : TaskPhase) (o : Option TaskRec) : Prop :=
  match o with
  | none => p = .absent
  | some r => PhaseShape p r

def Agrees (m : List (String × TaskPhase)) (s : TaskState) : Prop :=
  ∀ tid, RecShape (phaseOf m tid) (get_task_status tid s)

/-- Forward status order: pending may move anywhere, running anywhere
but back to pending, and the two terminal statuses are absorbing. -/
def statusForward : TStatus → TStatus → Prop
  | .pending, _ => True
  | .running, t => t ≠ .pending
  | .completed, t => t = .completed
  | .failed, t => t = .failed

/-- np.dot on two 1-D arrays of equal length. -/
def np_dot {K : Type} [LinearOrderedField K] (a b : List K) : K :=
  (List.zipWith (· * ·) a b).sum

/-- np.linalg.norm: the square root of the sum of squares. -/
def np_linalg_norm {K : Type} [LinearOrderedField K] (sqrt : K → K) (v : List K) : K :=
  sqrt (np_dot v v)

/-- EmbeddingsManager.cosine_similarity: guarded against zero norms,
returning 0.0 in that case. -/
def cosine_similarity {K : Type} [LinearOrderedField K] (sqrt : K → K)
    (vec1 vec2 : List K) : K :=
  if np_linalg_norm sqrt vec1 = 0 ∨ np_linalg_norm sqrt vec2 = 0 then 0
  else np_dot vec1 vec2 / (np_linalg_norm sqrt vec1 * np_linalg_norm sqrt vec2)

/-- The module-level `similarity` of embeddings.py: an unguarded
division.  `none` models the non-finite float (NaN) that numpy produces
when the denominator is zero; numpy emits a warning, not an exception,
so the except branch is not taken. -/
def similarity {K : Type} [LinearOrderedField K] (sqrt : K → K)
    (e1 e2 : List K) : Option K :=
  if np_linalg_norm sqrt e1 * np_linalg_norm sqrt e2 = 0 then none
  else some (np_dot e1 e2 / (np_linalg_norm sqrt e1 * np_linalg_norm sqrt e2))

/-- Python list.sort(key=lambda x: x[1], reverse=True): a stable sort,
descending in the score component. -/
def sortByScoreDesc {K : Type} [LinearOrderedField K]
    (l : List (String × K)) : List (String × K) :=
  l.mergeSort (fun a b => decide (b.2 ≤ a.2))

/-- The similarity list built inside EmbeddingsManager.search: each
document paired with its cosine similarity to the query (the query is
embedded once, the documents in one batch, and zipped back in order). -/
def scoredDocs {K : Type} [LinearOrderedField K] (sqrt : K → K)
    (embed : String → List K) (query : String) (documents : List String) :
    List (String × K) :=
  documents.map fun doc => (doc, cosine_similarity sqrt (embed query) (embed doc))

/-- EmbeddingsManager.search: score every document against the query,
sort descending by score (stable), return the first top_k. -/
def search {K : Type} [LinearOrderedField K] (sqrt : K → K)
    (embed : String → List K) (query : String) (documents : List String)
    (top_k : ℕ) : List (String × K) :=
  (sortByScoreDesc (scoredDocs sqrt embed query documents)).take top_k

/-- The loop of EmbeddingsManager.batch_search: walk the corpus in
slices of chunk_size, run `search` on each slice keeping the whole
slice (top_k = len(batch)), and concatenate.  `none` models the
ValueError range raises when chunk_size = 0. -/
def batchLoop {K : Type} [LinearOrderedField K] (sqrt : K → K)
    (embed : String → List K) (query : String) (chunk_size : ℕ) :
    List String → Option (List (String × K))
  | [] => if chunk_size = 0 then none else some []
  | d :: rest =>
    if h : chunk_size = 0 then none
    else
      match batchLoop sqrt embed query chunk_size ((d :: rest).drop chunk_size) with
      | none => none
      | some acc => some (search sqrt embed query ((d :: rest).take chunk_size)
          ((d :: rest).take chunk_size).length ++ acc)
termination_by docs => docs.length
decreasing_by
  simp only [List.length_drop, List.length_cons]
  omega

/-- EmbeddingsManager.batch_search: gather all per-slice results, sort
globally (stable, descending) and truncate to top_k. -/
def batch_search {K : Type} [LinearOrderedField K] (sqrt : K → K)
    (embed : String → List K) (query : String) (documents : List String)
    (chunk_size top_k : ℕ) : Option (List (String × K)) :=
  (batchLoop sqrt embed query chunk_size documents).map fun all =>
    (sortByScoreDesc all).take top_k

/-- get_embeddings_model of embeddings.py: the load failure is caught
and the cached global stays None. -/
def get_embeddings_model {Emb : Type} (load : Except String Emb) : Option Emb :=
  match load with
  | .ok m => some m
  | .error _ => none

/-- embed_text of embeddings.py: returns the empty list when the model
could not be loaded. -/
def embed_text {K Emb : Type} (load : Except String Emb)
    (encode : Emb → String → List K) (text : String) : List K :=
  match get_embeddings_model load with
  | none => []
  | some m => encode m text

/-- embed_texts of embeddings.py: returns the empty list when the model
could not be loaded or the input is empty. -/
def embed_texts {K Emb : Type} (load : Except String Emb)
    (encodeB : Emb → List String → List (List K)) (texts : List String) :
    List (List K) :=
  match get_embeddings_model load with
  | none => []
  | some m => if texts.isEmpty then [] else encodeB m texts

structure EmbeddingsManager (Emb : Type) where
  model : Emb

/-- EmbeddingsManager.__init__ of search.py: re-raises the load
failure. -/
def EmbeddingsManager.init {Emb : Type} (load : Except String Emb) :
    Except String (EmbeddingsManager Emb) :=
  match load with
  | .ok m => .ok ⟨m⟩
  | .error e => .error e

theorem intercalate_nil_words (sep : List Char) : List.intercalate sep [] = [] := by
  simp [List.intercalate]

theorem intercalate_single (sep : List Char) (w : List Char) :
    List.intercalate sep [w] = w := by
  simp [List.intercalate]

theorem intercalate_cons₂ (sep a b : List Char) (l : List (List Char)) :
    List.intercalate sep (a :: b :: l) = a ++ sep ++ List.intercalate sep (b :: l) := by
  simp [List.intercalate, List.intersperse]

theorem splitWsAux_ws (c : Char) (hc : c.isWhitespace = true) (s : List Char) :
    splitWsAux (c :: s) [] = splitWsAux s [] := by
  simp [splitWsAux, hc]

theorem splitWsAux_ws_acc (c : Char) (hc : c.isWhitespace = true) (s acc : List Char)
    (ha : acc ≠ []) : splitWsAux (c :: s) acc = acc :: splitWsAux s [] := by
  simp [splitWsAux, hc, ha]

theorem splitWsAux_word (w : List Char) (hw : ∀ c ∈ w, c.isWhitespace = false) :
    ∀ (s acc : List Char), splitWsAux (w ++ s) acc = splitWsAux s (acc ++ w) := by
  induction w with
  | nil => simp
  | cons c w ih =>
    intro s acc
    have hc : c.isWhitespace = false := hw c (by simp)
    simp only [List.cons_append, splitWsAux, hc, Bool.false_eq_true, if_false,
      List.append_eq]
    rw [ih (fun d hd => hw d (by simp [hd])) s (acc ++ [c])]
    simp

theorem splitWsAux_nil_acc (acc : List Char) (ha : acc ≠ []) :
    splitWsAux [] acc = [acc] := by
  simp [splitWsAux, ha]

theorem mem_splitWsAux : ∀ (s acc w : List Char),
    (∀ c ∈ acc, c.isWhitespace = false) → w ∈ splitWsAux s acc →
    w ≠ [] ∧ ∀ c ∈ w, c.isWhitespace = false := by
  intro s
  induction s with
  | nil =>
    intro acc w hacc hw
    by_cases ha : acc = []
    · subst ha; simp [splitWsAux] at hw
    · rw [splitWsAux_nil_acc acc ha] at hw
      simp at hw
      subst hw
      exact ⟨ha, hacc⟩
  | cons c rest ih =>
    intro acc w hacc hw
    by_cases hc : c.isWhitespace
    · by_cases ha : acc = []
      · subst ha
        rw [splitWsAux_ws c hc rest] at hw
        exact ih [] w (by simp) hw
      · rw [splitWsAux_ws_acc c hc rest acc ha] at hw
        rcases List.mem_cons.mp hw with h | h
        · subst h; exact ⟨ha, hacc⟩
        · exact ih [] w (by simp) h
    · have hc' : c.isWhitespace = false := by simpa using hc
      simp only [splitWsAux, hc', Bool.false_eq_true, if_false] at hw
      refine ih (acc ++ [c]) w ?_ hw
      intro d hd
      rcases List.mem_append.mp hd with h | h
      · exact hacc d h
      · simp at h; subst h; exact hc'

theorem mem_splitWs (s w : List Char) (hw : w ∈ splitWs s) :
    w ≠ [] ∧ ∀ c ∈ w, c.isWhitespace = false :=
  mem_splitWsAux s [] w (by simp) hw

/-- Splitting the space-joined form of a list of non-empty,
whitespace-free words recovers the words. -/
theorem splitWs_intercalate : ∀ (L : List (List Char)),
    (∀ w ∈ L, w ≠ [] ∧ ∀ c ∈ w, c.isWhitespace = false) →
    splitWs (List.intercalate [' '] L) = L := by
  intro L
  induction L with
  | nil => intro _; simp [intercalate_nil_words, splitWs, splitWsAux]
  | cons w L ih =>
    intro h
    obtain ⟨hw1, hw2⟩ := h w (by simp)
    cases L with
    | nil =>
      rw [intercalate_single]
      unfold splitWs
      have hwapp : splitWsAux w [] = splitWsAux (w ++ []) [] := by simp
      rw [hwapp, splitWsAux_word w hw2 [] [], List.nil_append,
        splitWsAux_nil_acc w hw1]
    | cons wB LB =>
      rw [intercalate_cons₂]
      unfold splitWs
      rw [List.append_assoc]
      have hsp : [' '] ++ List.intercalate [' '] (wB :: LB) =
          ' ' :: List.intercalate [' '] (wB :: LB) := rfl
      rw [hsp, splitWsAux_word w hw2 _ [], List.nil_append,
        splitWsAux_ws_acc ' ' (by decide) _ w hw1]
      have hih := ih (fun u hu => h u (by simp [hu]))
      unfold splitWs at hih
      rw [hih]

theorem pyStrip_eq_nil_iff (s : List Char) :
    pyStrip s = [] ↔ ∀ c ∈ s, c.isWhitespace = true := by
  unfold pyStrip
  rw [List.reverse_eq_nil_iff, List.dropWhile_eq_nil_iff]
  constructor
  · intro h c hc
    have hsplit : s.takeWhile Char.isWhitespace ++ s.dropWhile Char.isWhitespace = s :=
      List.takeWhile_append_dropWhile Char.isWhitespace s
    rw [← hsplit] at hc
    rcases List.mem_append.mp hc with h1 | h1
    · exact List.mem_takeWhile_imp h1
    · exact h c (by simpa using h1)
  · intro h c hc
    rw [List.mem_reverse] at hc
    exact h c (List.dropWhile_sublist Char.isWhitespace |>.subset hc)

theorem pyStrip_not_empty (s : List Char) (d : Char) (hd : d ∈ s)
    (hw : d.isWhitespace = false) : (pyStrip s).isEmpty = false := by
  rw [List.isEmpty_eq_false_iff_exists_mem]
  by_contra h
  push_neg at h
  have : pyStrip s = [] := List.eq_nil_iff_forall_not_mem.mpr h
  have := (pyStrip_eq_nil_iff s).mp this d hd
  simp [hw] at this

theorem pySlice_nat {α : Type} (l : List α) (i : ℕ) (c : ℤ) (hc : 0 < c) :
    pySlice l (i : ℤ) ((i : ℤ) + c) = (l.drop i).take c.toNat := by
  unfold pySlice pySliceIdx
  have h1 : ¬((i : ℤ) < 0) := by omega
  have h2 : ¬((i : ℤ) + c < 0) := by omega
  have h3 : ((i : ℤ) + c).toNat = i + c.toNat := by omega
  have h4 : (i : ℤ).toNat = i := by omega
  simp only [if_neg h1, if_neg h2, h3, h4]
  rcases le_or_lt l.length i with hle | hlt
  · have hmin : min i l.length = l.length := min_eq_right hle
    have hlen : (l.take (min (i + c.toNat) l.length)).length ≤ l.length := by
      simp only [List.length_take]
      omega
    rw [hmin, List.drop_eq_nil_of_le hlen, List.drop_eq_nil_of_le hle, List.take_nil]
  · have hmini : min i l.length = i := min_eq_left (le_of_lt hlt)
    rw [hmini]
    rcases le_or_lt (i + c.toNat) l.length with hle2 | hlt2
    · rw [min_eq_left hle2, ← List.take_drop]
    · have hd : (l.drop i).length ≤ c.toNat := by
        simp only [List.length_drop]
        omega
      rw [min_eq_right (le_of_lt hlt2), List.take_length, List.take_of_length_le hd]

theorem range_mul_lt (n st j : ℕ) (hst : 0 < st) (hj : j < (n + st - 1) / st) :
    j * st < n := by
  have h2 : (j + 1) * st ≤ n + st - 1 := (Nat.le_div_iff_mul_le hst).mp hj
  have h4 : 1 * st ≤ n + st - 1 :=
    (Nat.le_div_iff_mul_le hst).mp (le_trans (by omega) hj)
  have hmul : (j + 1) * st = j * st + st := by ring
  omega

/-- Joining a non-empty list of non-empty whitespace-free words never
strips down to the empty string. -/
theorem pyStrip_intercalate_ne (L : List (List Char)) (hne : L ≠ [])
    (hwords : ∀ w ∈ L, w ≠ [] ∧ ∀ c ∈ w, c.isWhitespace = false) :
    (pyStrip (List.intercalate [' '] L)).isEmpty = false := by
  rcases L with _ | ⟨w, rest⟩
  · exact absurd rfl hne
  · obtain ⟨hw1, hw2⟩ := hwords w (by simp)
    rcases hwshape : w with _ | ⟨d, w₂⟩
    · exact absurd hwshape hw1
    · subst hwshape
      have hd : d ∈ List.intercalate [' '] ((d :: w₂) :: rest) := by
        rcases rest with _ | _
        · rw [intercalate_single]; simp
        · rw [intercalate_cons₂]; simp
      exact pyStrip_not_empty _ d hd (hw2 d (by simp))

/-- Behavior of `chunk_text` on valid parameters: the sliding windows of
`chunk_size` tokens advancing by `chunk_size - overlap`, every window
kept (all are non-empty after stripping). -/
theorem chunk_text_valid (text : List Char) (c o : ℤ) (hc : 0 < c) (ho : o < c) :
    chunk_text text c o = some
      ((List.range (((splitWs text).length + (c - o).toNat - 1) / (c - o).toNat)).map
        fun j => List.intercalate [' ']
          (((splitWs text).drop (j * (c - o).toNat)).take c.toNat)) := by
  have hne : ¬(c - o = 0) := by omega
  have hng : ¬(c - o < 0) := by omega
  have hst : 0 < (c - o).toNat := by omega
  have hkeep : ∀ j : ℕ, j < ((splitWs text).length + (c - o).toNat - 1) / (c - o).toNat →
      (!(pyStrip (List.intercalate [' ']
        (((splitWs text).drop (j * (c - o).toNat)).take c.toNat))).isEmpty) = true := by
    intro j hj
    have hidx : j * (c - o).toNat < (splitWs text).length :=
      range_mul_lt (splitWs text).length (c - o).toNat j hst hj
    have hwords : ∀ w ∈ ((splitWs text).drop (j * (c - o).toNat)).take c.toNat,
        w ≠ [] ∧ ∀ ch ∈ w, ch.isWhitespace = false := by
      intro w hw
      exact mem_splitWs text w
        ((((splitWs text).drop (j * (c - o).toNat)).take_sublist c.toNat).trans
          ((splitWs text).drop_sublist (j * (c - o).toNat)) |>.subset hw)
    have hne2 : ((splitWs text).drop (j * (c - o).toNat)).take c.toNat ≠ [] := by
      rcases hdrop : (splitWs text).drop (j * (c - o).toNat) with _ | ⟨w, rest⟩
      · rw [List.drop_eq_nil_iff] at hdrop; omega
      · have hctn : c.toNat = c.toNat - 1 + 1 := by omega
        rw [hctn, List.take_succ_cons]
        simp
    simp [pyStrip_intercalate_ne _ hne2 hwords]
  unfold chunk_text pyRange0
  simp only [if_neg hne, if_neg hng, Option.map_some']
  congr 1
  rw [List.map_map]
  refine Eq.trans (List.filter_eq_self.mpr ?_) (List.map_congr_left ?_)
  · intro chunk hchunk
    rw [List.mem_map] at hchunk
    obtain ⟨j, hj, rfl⟩ := hchunk
    rw [List.mem_range] at hj
    simp only [Function.comp_apply]
    rw [pySlice_nat (splitWs text) (j * (c - o).toNat) c hc]
    exact hkeep j hj
  · intro j hj
    rw [List.mem_range] at hj
    simp only [Function.comp_apply]
    rw [pySlice_nat (splitWs text) (j * (c - o).toNat) c hc]

/-- C2 counterexample: with overlap = 5 > chunk_size = 3 (a negative
stride), chunk_text does not fail with an InvalidArgument error: the
underlying range is empty and it silently returns an empty chunk list. -/
theorem c2_counterexample : chunk_text "a b c".toList 3 5 = some [] ∧
    chunk_text "a b c".toList 3 5 ≠ none := by decide

/-- C2 (amended): chunk_text performs no argument validation.  It fails
(with the ValueError raised by range on a zero step) exactly when
overlap = chunk_size; when overlap > chunk_size it silently returns an
empty chunk list instead of failing. -/
theorem c2_no_validation (text : List Char) (c o : ℤ) :
    (chunk_text text c o = none ↔ c = o) ∧
    (c < o → chunk_text text c o = some []) := by
  constructor
  · by_cases h : c - o = 0
    · simp only [chunk_text, pyRange0, if_pos h, Option.map_none']
      constructor
      · intro _; omega
      · intro _; trivial
    · by_cases h2 : c - o < 0 <;>
        simp [chunk_text, pyRange0, h, h2] <;> omega
  · intro hlt
    have h1 : ¬(c - o = 0) := by omega
    have h2 : c - o < 0 := by omega
    simp [chunk_text, pyRange0, h1, h2]

theorem c2_no_validation_witness : (3 : ℤ) < 5 ∧ chunk_text "a b".toList 3 5 = some [] :=
  ⟨by decide, (c2_no_validation "a b".toList 3 5).2 (by decide)⟩

/-- C8: for valid parameters (0 < chunk_size, overlap < chunk_size),
chunk_text yields precisely the sliding windows of chunk_size tokens
advancing by chunk_size - overlap tokens (the final partial window
included, every window being non-empty), the empty input yields the
empty sequence, and in particular
chunk_text "a b c d e f" 3 1 = ["a b c", "c d e", "e f"]. -/
theorem c8_chunk_windows :
    (∀ (text : List Char) (c o : ℤ), 0 < c → o < c →
      chunk_text text c o = some
        ((List.range (((splitWs text).length + (c - o).toNat - 1) / (c - o).toNat)).map
          fun j => List.intercalate [' ']
            (((splitWs text).drop (j * (c - o).toNat)).take c.toNat)) ∧
      (text = [] → chunk_text text c o = some [])) ∧
    chunk_text "a b c d e f".toList 3 1 =
      some ["a b c".toList, "c d e".toList, "e f".toList] := by
  constructor
  · intro text c o hc ho
    refine ⟨chunk_text_valid text c o hc ho, ?_⟩
    intro htext
    subst htext
    rw [chunk_text_valid [] c o hc ho]
    have h0 : splitWs [] = [] := rfl
    rw [h0]
    simp only [List.length_nil, Nat.zero_add]
    rw [Nat.div_eq_of_lt (by omega)]
    simp
  · decide

theorem c8_witness : ((0 : ℤ) < 2 ∧ (1 : ℤ) < 2) ∧
    chunk_text "x y z".toList 2 1 = some
      ((List.range (((splitWs "x y z".toList).length + ((2 : ℤ) - 1).toNat - 1) /
          ((2 : ℤ) - 1).toNat)).map
        fun j => List.intercalate [' ']
          (((splitWs "x y z".toList).drop (j * ((2 : ℤ) - 1).toNat)).take (2 : ℤ).toNat)) :=
  ⟨⟨by decide, by decide⟩,
    (c8_chunk_windows.1 "x y z".toList 2 1 (by decide) (by decide)).1⟩

/-- C10 (implicit): for valid parameters, every chunk produced by
chunk_text is non-empty after stripping and holds at most chunk_size
whitespace-delimited tokens. -/
theorem c10_chunk_token_bound (text : List Char) (c o : ℤ) (hc : 0 < c) (ho : o < c)
    (L : List (List Char)) (hL : chunk_text text c o = some L) :
    ∀ chunk ∈ L, (pyStrip chunk).isEmpty = false ∧
      (splitWs chunk).length ≤ c.toNat := by
  rw [chunk_text_valid text c o hc ho] at hL
  have hLeq := Option.some.inj hL
  subst hLeq
  intro chunk hchunk
  rw [List.mem_map] at hchunk
  obtain ⟨j, hj, rfl⟩ := hchunk
  rw [List.mem_range] at hj
  have hst : 0 < (c - o).toNat := by omega
  have hidx : j * (c - o).toNat < (splitWs text).length :=
    range_mul_lt (splitWs text).length (c - o).toNat j hst hj
  have hwords : ∀ w ∈ ((splitWs text).drop (j * (c - o).toNat)).take c.toNat,
      w ≠ [] ∧ ∀ ch ∈ w, ch.isWhitespace = false := by
    intro w hw
    exact mem_splitWs text w
      ((((splitWs text).drop (j * (c - o).toNat)).take_sublist c.toNat).trans
        ((splitWs text).drop_sublist (j * (c - o).toNat)) |>.subset hw)
  have hne2 : ((splitWs text).drop (j * (c - o).toNat)).take c.toNat ≠ [] := by
    rcases hdrop : (splitWs text).drop (j * (c - o).toNat) with _ | ⟨w, rest⟩
    · rw [List.drop_eq_nil_iff] at hdrop; omega
    · have hctn : c.toNat = c.toNat - 1 + 1 := by omega
      rw [hctn, List.take_succ_cons]
      simp
  constructor
  · exact pyStrip_intercalate_ne _ hne2 hwords
  · rw [splitWs_intercalate _ hwords]
    calc (((splitWs text).drop (j * (c - o).toNat)).take c.toNat).length
        ≤ c.toNat := by simp

theorem c10_witness : ((0 : ℤ) < 2 ∧ (0 : ℤ) < 2) ∧
    chunk_text "x y".toList 2 0 = some ["x y".toList] ∧
    (∀ chunk ∈ ["x y".toList], (pyStrip chunk).isEmpty = false ∧
      (splitWs chunk).length ≤ (2 : ℤ).toNat) :=
  ⟨⟨by decide, by decide⟩, by decide,
    c10_chunk_token_bound "x y".toList 2 0 (by decide) (by decide)
      ["x y".toList] (by decide)⟩

theorem dictGet_dictSet_self {β : Type} (m : List (String × β)) (key : String) (v : β) :
    dictGet (dictSet m key v) key = some v := by
  induction m with
  | nil => simp [dictGet, dictSet]
  | cons kv rest ih =>
    obtain ⟨k, w⟩ := kv
    by_cases h : k = key
    · simp [dictGet, dictSet, h]
    · simp [dictGet, dictSet, h, ih]

theorem dictGet_dictSet_other {β : Type} (m : List (String × β)) (key key2 : String)
    (v : β) (h : key2 ≠ key) : dictGet (dictSet m key v) key2 = dictGet m key2 := by
  induction m with
  | nil => simp [dictGet, dictSet, Ne.symm h]
  | cons kv rest ih =>
    obtain ⟨k, w⟩ := kv
    by_cases hk : k = key
    · subst hk
      simp [dictGet, dictSet, Ne.symm h]
    · simp only [dictSet, if_neg hk, dictGet]
      by_cases hk2 : k = key2
      · simp [hk2]
      · simp [hk2, ih]

/-- C3 counterexample: after "t" has completed, a second submit_task
with the same id is not rejected with DuplicateTask: it resets the
record to a fresh pending one and hands the work to the executor a
second time. -/
theorem c3_counterexample :
    ((runOps [.submit "t", .execStart "t", .execFinishOk "t" "x"]).bind
      (get_task_status "t")).map (·.status) = some .completed ∧
    ((runOps [.submit "t", .execStart "t", .execFinishOk "t" "x", .submit "t"]).bind
      (get_task_status "t")).map (·.status) = some .pending ∧
    (runOps [.submit "t", .execStart "t", .execFinishOk "t" "x", .submit "t"]).map
      (·.queue) = some ["t", "t"] := by decide

/-- C3 (amended): submit_task with an id already present is accepted:
it overwrites the record with a fresh pending record and enqueues the
work again, so the id can execute more than once. -/
theorem c3_duplicate_submit_overwrites (s : TaskState) (tid : String)
    (hpresent : get_task_status tid s ≠ none) :
    (submit_task tid s).queue = s.queue ++ [tid] ∧
    get_task_status tid (submit_task tid s) = some (freshRec s.clock) := by
  refine ⟨rfl, ?_⟩
  unfold get_task_status submit_task
  exact dictGet_dictSet_self s.tracking tid (freshRec s.clock)

theorem c3_witness :
    get_task_status "t" (submit_task "t" initTaskState) ≠ none ∧
    ((submit_task "t" (submit_task "t" initTaskState)).queue =
        (submit_task "t" initTaskState).queue ++ ["t"] ∧
      get_task_status "t" (submit_task "t" (submit_task "t" initTaskState)) =
        some (freshRec (submit_task "t" initTaskState).clock)) :=
  ⟨by decide, c3_duplicate_submit_overwrites (submit_task "t" initTaskState) "t" (by decide)⟩

/-- C7: a unit of work that raises is caught at the pool boundary: the
task ends failed with its error field set, the executor step itself
returns normally, and a concurrently submitted succeeding task still
ends completed. -/
theorem c7_failure_contained (t2 t3 msg res : String) (hne : t2 ≠ t3) :
    runOps [.submit t2, .submit t3, .execStart t2, .execStart t3,
        .execFinishErr t2 msg, .execFinishOk t3 res] =
      some { tracking := [(t2, { status := .failed, created_at := 0, updated_at := 0,
                                 result := none, error := some msg, progress := 0 }),
                          (t3, { status := .completed, created_at := 1, updated_at := 1,
                                 result := some res, error := none, progress := 100 })],
             queue := [t2, t3], clock := 6 } ∧
    (∀ s, runOps [.submit t2, .submit t3, .execStart t2, .execStart t3,
        .execFinishErr t2 msg, .execFinishOk t3 res] = some s →
      (get_task_status t2 s).map (·.status) = some .failed ∧
      (get_task_status t2 s).bind (·.error) = some msg ∧
      (get_task_status t3 s).map (·.status) = some .completed) := by
  have hne2 : t3 ≠ t2 := fun he => hne he.symm
  have hrun : runOps [.submit t2, .submit t3, .execStart t2, .execStart t3,
      .execFinishErr t2 msg, .execFinishOk t3 res] =
    some { tracking := [(t2, { status := .failed, created_at := 0, updated_at := 0,
                               result := none, error := some msg, progress := 0 }),
                        (t3, { status := .completed, created_at := 1, updated_at := 1,
                               result := some res, error := none, progress := 100 })],
           queue := [t2, t3], clock := 6 } := by
    simp [runOps, runOpsFrom, taskStep, submit_task, initTaskState, freshRec,
      dictGet, dictSet, hne, hne2]
  refine ⟨hrun, ?_⟩
  intro s hs
  rw [hrun] at hs
  have hseq := Option.some.inj hs
  subst hseq
  refine ⟨?_, ?_, ?_⟩ <;>
    simp [get_task_status, dictGet, hne, hne2]

theorem c7_witness : ("a" : String) ≠ "b" ∧
    (∀ s, runOps [.submit "a", .submit "b", .execStart "a", .execStart "b",
        .execFinishErr "a" "boom", .execFinishOk "b" "done"] = some s →
      (get_task_status "a" s).map (·.status) = some .failed ∧
      (get_task_status "a" s).bind (·.error) = some "boom" ∧
      (get_task_status "b" s).map (·.status) = some .completed) :=
  ⟨by decide, (c7_failure_contained "a" "b" "boom" "done" (by decide)).2⟩

theorem dictGet_dictSet {β : Type} (tr : List (String × β)) (tid tid2 : String) (v : β) :
    dictGet (dictSet tr tid v) tid2 = if tid2 = tid then some v else dictGet tr tid2 := by
  by_cases h : tid2 = tid
  · subst h; simp [dictGet_dictSet_self]
  · simp [h, dictGet_dictSet_other _ _ _ _ h]

theorem phaseOf_dictSet (m : List (String × TaskPhase)) (tid tid2 : String) (p : TaskPhase) :
    phaseOf (dictSet m tid p) tid2 = if tid2 = tid then p else phaseOf m tid2 := by
  by_cases h : tid2 = tid
  · subst h; simp [phaseOf, dictGet_dictSet_self]
  · simp [phaseOf, h, dictGet_dictSet_other _ _ _ _ h]

theorem statusForward_refl (st : TStatus) : statusForward st st := by
  cases st <;> simp [statusForward]

theorem Agrees_update (m : List (String × TaskPhase)) (s s2 : TaskState) (tid : String)
    (r : TaskRec) (p : TaskPhase) (hA : Agrees m s)
    (hget : ∀ tid2, get_task_status tid2 s2 =
      if tid2 = tid then some r else get_task_status tid2 s)
    (hshape : PhaseShape p r) : Agrees (dictSet m tid p) s2 := by
  intro tid2
  rw [hget tid2, phaseOf_dictSet]
  by_cases h : tid2 = tid
  · rw [if_pos h, if_pos h]; exact hshape
  · rw [if_neg h, if_neg h]; exact hA tid2

theorem Agrees_update_same (m : List (String × TaskPhase)) (s s2 : TaskState)
    (tid : String) (r newr : TaskRec) (hA : Agrees m s)
    (hr : get_task_status tid s = some r)
    (hget : ∀ tid2, get_task_status tid2 s2 =
      if tid2 = tid then some newr else get_task_status tid2 s)
    (hstat : newr.status = r.status) (hres : newr.result = r.result)
    (herr : newr.error = r.error) : Agrees m s2 := by
  intro tid2
  rw [hget tid2]
  by_cases h : tid2 = tid
  · rw [if_pos h]
    subst h
    have hsh := hA tid2
    rw [hr] at hsh
    show PhaseShape (phaseOf m tid2) newr
    cases hph : phaseOf m tid2 with
    | absent => rw [hph] at hsh; exact hsh.elim
    | submitted =>
      rw [hph] at hsh
      obtain ⟨h1, h2, h3⟩ := hsh
      exact ⟨hstat.trans h1, hres.trans h2, herr.trans h3⟩
    | started =>
      rw [hph] at hsh
      obtain ⟨h1, h2, h3⟩ := hsh
      exact ⟨hstat.trans h1, hres.trans h2, herr.trans h3⟩
    | finished =>
      rw [hph] at hsh
      rcases hsh with ⟨h1, h2, h3⟩ | ⟨h1, h2, h3⟩
      · exact Or.inl ⟨hstat.trans h1, by rw [hres]; exact h2, herr.trans h3⟩
      · exact Or.inr ⟨hstat.trans h1, hres.trans h2, by rw [herr]; exact h3⟩
  · rw [if_neg h]; exact hA tid2

/-- One valid operation from a state agreeing with its phase map
succeeds, preserves agreement, and moves every existing record's status
only forward. -/
theorem taskStep_valid (m : List (String × TaskPhase)) (s : TaskState) (op : TaskOp)
    (hA : Agrees m s) (hok : opOk m op = true) :
    ∃ s2, taskStep s op = some s2 ∧ Agrees (opNext m op) s2 ∧
      ∀ tid r r2, get_task_status tid s = some r → get_task_status tid s2 = some r2 →
        statusForward r.status r2.status := by
  cases op with
  | submit tid =>
    have hph : phaseOf m tid = .absent := by simpa [opOk] using hok
    refine ⟨submit_task tid s, rfl, ?_, ?_⟩
    · apply Agrees_update m s _ tid (freshRec s.clock) .submitted hA
      · intro tid2
        simp [get_task_status, submit_task, dictGet_dictSet]
      · exact ⟨rfl, rfl, rfl⟩
    · intro tid2 r r2 hr hr2
      by_cases h : tid2 = tid
      · subst h
        have hsh := hA tid2
        rw [hph, hr] at hsh
        exact hsh.elim
      · simp only [get_task_status, submit_task] at hr hr2
        rw [dictGet_dictSet, if_neg h, hr] at hr2
        cases Option.some.inj hr2
        exact statusForward_refl r.status
  | execStart tid =>
    have hph : phaseOf m tid = .submitted := by simpa [opOk] using hok
    have hsh := hA tid
    rw [hph] at hsh
    cases hget : get_task_status tid s with
    | none => rw [hget] at hsh; exact absurd hsh (by simp [RecShape])
    | some r =>
      rw [hget] at hsh
      obtain ⟨hst, hres, herr⟩ := hsh
      have hget' : dictGet s.tracking tid = some r := hget
      refine ⟨{ s with tracking := dictSet s.tracking tid { r with status := .running }, clock := s.clock + 1 }, by simp [taskStep, hget'], ?_, ?_⟩
      · apply Agrees_update m s _ tid { r with status := .running } .started hA
        · intro tid2
          simp [get_task_status, dictGet_dictSet]
        · exact ⟨rfl, hres, herr⟩
      · intro tid2 r1 r2 hr1 hr2
        simp only [get_task_status] at hr1 hr2
        rw [dictGet_dictSet] at hr2
        by_cases h : tid2 = tid
        · subst h
          rw [if_pos rfl] at hr2
          rw [hget'] at hr1
          cases Option.some.inj hr1
          cases Option.some.inj hr2
          rw [hst]
          trivial
        · rw [if_neg h, hr1] at hr2
          cases Option.some.inj hr2
          exact statusForward_refl r1.status
  | execFinishOk tid res =>
    have hph : phaseOf m tid = .started := by simpa [opOk] using hok
    have hsh := hA tid
    rw [hph] at hsh
    cases hget : get_task_status tid s with
    | none => rw [hget] at hsh; exact absurd hsh (by simp [RecShape])
    | some r =>
      rw [hget] at hsh
      obtain ⟨hst, hres, herr⟩ := hsh
      have hget' : dictGet s.tracking tid = some r := hget
      refine ⟨{ s with tracking := dictSet s.tracking tid { r with status := .completed, result := some res, progress := 100 }, clock := s.clock + 1 }, by simp [taskStep, hget'], ?_, ?_⟩
      · apply Agrees_update m s _ tid { r with status := .completed, result := some res, progress := 100 } .finished hA
        · intro tid2
          simp [get_task_status, dictGet_dictSet]
        · exact Or.inl ⟨rfl, by simp, herr⟩
      · intro tid2 r1 r2 hr1 hr2
        simp only [get_task_status] at hr1 hr2
        rw [dictGet_dictSet] at hr2
        by_cases h : tid2 = tid
        · subst h
          rw [if_pos rfl] at hr2
          rw [hget'] at hr1
          cases Option.some.inj hr1
          cases Option.some.inj hr2
          rw [hst]
          simp [statusForward]
        · rw [if_neg h, hr1] at hr2
          cases Option.some.inj hr2
          exact statusForward_refl r1.status
  | execFinishErr tid msg =>
    have hph : phaseOf m tid = .started := by simpa [opOk] using hok
    have hsh := hA tid
    rw [hph] at hsh
    cases hget : get_task_status tid s with
    | none => rw [hget] at hsh; exact absurd hsh (by simp [RecShape])
    | some r =>
      rw [hget] at hsh
      obtain ⟨hst, hres, herr⟩ := hsh
      have hget' : dictGet s.tracking tid = some r := hget
      refine ⟨{ s with tracking := dictSet s.tracking tid { r with status := .failed, error := some msg, progress := 0 }, clock := s.clock + 1 }, by simp [taskStep, hget'], ?_, ?_⟩
      · apply Agrees_update m s _ tid { r with status := .failed, error := some msg, progress := 0 } .finished hA
        · intro tid2
          simp [get_task_status, dictGet_dictSet]
        · exact Or.inr ⟨rfl, hres, by simp⟩
      · intro tid2 r1 r2 hr1 hr2
        simp only [get_task_status] at hr1 hr2
        rw [dictGet_dictSet] at hr2
        by_cases h : tid2 = tid
        · subst h
          rw [if_pos rfl] at hr2
          rw [hget'] at hr1
          cases Option.some.inj hr1
          cases Option.some.inj hr2
          rw [hst]
          simp [statusForward]
        · rw [if_neg h, hr1] at hr2
          cases Option.some.inj hr2
          exact statusForward_refl r1.status
  | update_progress tid p =>
    cases hget : dictGet s.tracking tid with
    | none =>
      refine ⟨{ s with clock := s.clock + 1 }, by simp [taskStep, hget], ?_, ?_⟩
      · exact fun tid2 => hA tid2
      · intro tid2 r1 r2 hr1 hr2
        have hr2' : get_task_status tid2 s = some r2 := hr2
        rw [hr1] at hr2'
        cases Option.some.inj hr2'
        exact statusForward_refl r1.status
    | some r =>
      refine ⟨{ s with tracking := dictSet s.tracking tid { r with progress := min 100 (max 0 p), updated_at := s.clock }, clock := s.clock + 1 }, by simp [taskStep, hget], ?_, ?_⟩
      · apply Agrees_update_same m s _ tid r
          { r with progress := min 100 (max 0 p), updated_at := s.clock } hA hget
        · intro tid2
          simp [get_task_status, dictGet_dictSet]
        · rfl
        · rfl
        · rfl
      · intro tid2 r1 r2 hr1 hr2
        simp only [get_task_status] at hr1 hr2
        rw [dictGet_dictSet] at hr2
        by_cases h : tid2 = tid
        · subst h
          rw [if_pos rfl] at hr2
          rw [hget] at hr1
          cases Option.some.inj hr1
          cases Option.some.inj hr2
          exact statusForward_refl r.status
        · rw [if_neg h, hr1] at hr2
          cases Option.some.inj hr2
          exact statusForward_refl r1.status
  | getStatus tid =>
    refine ⟨{ s with clock := s.clock + 1 }, rfl, ?_, ?_⟩
    · exact fun tid2 => hA tid2
    · intro tid2 r1 r2 hr1 hr2
      have hr2' : get_task_status tid2 s = some r2 := hr2
      rw [hr1] at hr2'
      cases Option.some.inj hr2'
      exact statusForward_refl r1.status

/-- C4 counterexample: with a duplicate submission whose two executions
interleave, a reachable record has result and error non-empty at once;
and a plain resubmission moves a task out of the terminal failed state
back to pending. -/
theorem c4_counterexample :
    ((runOps [.submit "t", .execStart "t", .submit "t", .execStart "t",
        .execFinishOk "t" "x", .execFinishErr "t" "boom"]).bind
      (get_task_status "t")).map (fun r => (r.status, r.result, r.error)) =
        some (TStatus.failed, some "x", some "boom") ∧
    ((runOps [.submit "u", .execStart "u", .execFinishErr "u" "e1"]).bind
      (get_task_status "u")).map (·.status) = some TStatus.failed ∧
    ((runOps [.submit "u", .execStart "u", .execFinishErr "u" "e1", .submit "u"]).bind
      (get_task_status "u")).map (·.status) = some TStatus.pending := by decide

theorem validFrom_append (m : List (String × TaskPhase)) (l1 l2 : List TaskOp)
    (h : validFrom m (l1 ++ l2) = true) :
    validFrom m l1 = true ∧ validFrom (phasesAfter m l1) l2 = true := by
  induction l1 generalizing m with
  | nil => exact ⟨rfl, h⟩
  | cons op rest ih =>
    simp only [List.cons_append, validFrom, Bool.and_eq_true] at h ⊢
    obtain ⟨hok, hrest⟩ := h
    obtain ⟨h1, h2⟩ := ih (opNext m op) hrest
    refine ⟨⟨hok, h1⟩, ?_⟩
    simpa [phasesAfter] using h2

theorem runOpsFrom_append (s : TaskState) (l1 l2 : List TaskOp) :
    runOpsFrom s (l1 ++ l2) = (runOpsFrom s l1).bind (fun s2 => runOpsFrom s2 l2) := by
  induction l1 generalizing s with
  | nil => simp [runOpsFrom]
  | cons op rest ih =>
    simp only [List.cons_append, runOpsFrom]
    cases taskStep s op with
    | none => simp
    | some s2 => simp [ih]

theorem runOpsFrom_valid : ∀ (ops : List TaskOp) (m : List (String × TaskPhase))
    (s : TaskState), Agrees m s → validFrom m ops = true →
    ∃ s2, runOpsFrom s ops = some s2 ∧ Agrees (phasesAfter m ops) s2 := by
  intro ops
  induction ops with
  | nil =>
    intro m s hA _
    exact ⟨s, rfl, by simpa [phasesAfter] using hA⟩
  | cons op rest ih =>
    intro m s hA hv
    simp only [validFrom, Bool.and_eq_true] at hv
    obtain ⟨hok, hrest⟩ := hv
    obtain ⟨s2, hstep, hA2, _⟩ := taskStep_valid m s op hA hok
    obtain ⟨s3, hrun, hA3⟩ := ih (opNext m op) s2 hA2 hrest
    refine ⟨s3, ?_, ?_⟩
    · simp [runOpsFrom, hstep, hrun]
    · simpa [phasesAfter] using hA3

theorem Agrees_init : Agrees [] initTaskState := by
  intro tid
  simp [phaseOf, dictGet, RecShape, get_task_status, initTaskState]

/-- C4 (amended): over well-formed operation sequences — each id
submitted at most once and executed once per submission, as the pool
produces when ids are unique — every reachable record has at most one
of result and error non-empty, and each record's status only moves
forward (pending, then running, then a terminal status it never
leaves).  Duplicate submissions break both invariants (see the
counterexample). -/
theorem c4_invariants (ops : List TaskOp) (hv : validOps ops = true) :
    ∃ s, runOps ops = some s ∧
      (∀ pre s2 tid r, pre <+: ops → runOps pre = some s2 →
        get_task_status tid s2 = some r → (r.result = none ∨ r.error = none)) ∧
      (∀ pre op s1 s2 tid r1 r2, pre ++ [op] <+: ops →
        runOps pre = some s1 → runOps (pre ++ [op]) = some s2 →
        get_task_status tid s1 = some r1 → get_task_status tid s2 = some r2 →
        statusForward r1.status r2.status) := by
  obtain ⟨sfin, hrunfin, _⟩ := runOpsFrom_valid ops [] initTaskState Agrees_init hv
  refine ⟨sfin, hrunfin, ?_, ?_⟩
  · intro pre s2 tid r hpre hrun hget
    obtain ⟨rest, hrest⟩ := hpre
    have hvpre : validFrom [] pre = true :=
      (validFrom_append [] pre rest (by rw [hrest]; exact hv)).1
    obtain ⟨s2x, hrun2, hA2⟩ := runOpsFrom_valid pre [] initTaskState Agrees_init hvpre
    rw [runOps] at hrun
    rw [hrun] at hrun2
    have hseq := Option.some.inj hrun2
    subst hseq
    have hsh := hA2 tid
    rw [hget] at hsh
    cases hph : phaseOf (phasesAfter [] pre) tid with
    | absent => rw [hph] at hsh; exact hsh.elim
    | submitted => rw [hph] at hsh; exact Or.inl hsh.2.1
    | started => rw [hph] at hsh; exact Or.inl hsh.2.1
    | finished =>
      rw [hph] at hsh
      rcases hsh with ⟨_, _, herr⟩ | ⟨_, hres, _⟩
      · exact Or.inr herr
      · exact Or.inl hres
  · intro pre op s1 s2 tid r1 r2 hpre hrun1 hrun2 hget1 hget2
    obtain ⟨rest, hrest⟩ := hpre
    have hsplit := validFrom_append [] (pre ++ [op]) rest (by rw [hrest]; exact hv)
    have hsplit2 := validFrom_append [] pre [op] hsplit.1
    have hok : opOk (phasesAfter [] pre) op = true := by
      have hvop := hsplit2.2
      simp only [validFrom, Bool.and_eq_true] at hvop
      exact hvop.1
    obtain ⟨s1x, hrun1x, hA1⟩ := runOpsFrom_valid pre [] initTaskState Agrees_init hsplit2.1
    rw [runOps] at hrun1 hrun2
    rw [hrun1] at hrun1x
    have hseq := Option.some.inj hrun1x
    subst hseq
    obtain ⟨s2x, hstep, _, hfwd⟩ := taskStep_valid (phasesAfter [] pre) s1 op hA1 hok
    have hruns : runOpsFrom initTaskState (pre ++ [op]) = some s2x := by
      rw [runOpsFrom_append, hrun1]
      simp [runOpsFrom, hstep]
    rw [hruns] at hrun2
    have hseq2 := Option.some.inj hrun2
    subst hseq2
    exact hfwd tid r1 r2 hget1 hget2

theorem c4_witness :
    validOps [.submit "t", .execStart "t", .execFinishOk "t" "r"] = true ∧
    (∃ s, runOps [.submit "t", .execStart "t", .execFinishOk "t" "r"] = some s ∧
      (∀ pre s2 tid r, pre <+: [TaskOp.submit "t", .execStart "t", .execFinishOk "t" "r"] →
        runOps pre = some s2 →
        get_task_status tid s2 = some r → (r.result = none ∨ r.error = none)) ∧
      (∀ pre op s1 s2 tid r1 r2,
        pre ++ [op] <+: [TaskOp.submit "t", .execStart "t", .execFinishOk "t" "r"] →
        runOps pre = some s1 → runOps (pre ++ [op]) = some s2 →
        get_task_status tid s1 = some r1 → get_task_status tid s2 = some r2 →
        statusForward r1.status r2.status)) :=
  ⟨by decide, c4_invariants [.submit "t", .execStart "t", .execFinishOk "t" "r"] (by decide)⟩

theorem sortLe_trans {K : Type} [LinearOrderedField K] (a b c : String × K)
    (h1 : decide (b.2 ≤ a.2) = true) (h2 : decide (c.2 ≤ b.2) = true) :
    decide (c.2 ≤ a.2) = true := by
  simp only [decide_eq_true_eq] at h1 h2 ⊢
  exact le_trans h2 h1

theorem sortLe_total {K : Type} [LinearOrderedField K] (a b : String × K) :
    (decide (b.2 ≤ a.2) || decide (a.2 ≤ b.2)) = true := by
  simp only [Bool.or_eq_true, decide_eq_true_eq]
  exact le_total b.2 a.2

theorem sortByScoreDesc_perm {K : Type} [LinearOrderedField K] (l : List (String × K)) :
    (sortByScoreDesc l).Perm l :=
  List.mergeSort_perm l _

theorem length_sortByScoreDesc {K : Type} [LinearOrderedField K] (l : List (String × K)) :
    (sortByScoreDesc l).length = l.length :=
  List.length_mergeSort l

theorem sortByScoreDesc_sorted {K : Type} [LinearOrderedField K] (l : List (String × K)) :
    (sortByScoreDesc l).Pairwise (fun a b => b.2 ≤ a.2) := by
  have h : (List.mergeSort l (fun a b : String × K => decide (b.2 ≤ a.2))).Pairwise
      (fun a b : String × K => decide (b.2 ≤ a.2) = true) :=
    List.sorted_mergeSort sortLe_trans sortLe_total l
  exact h.imp (fun hab => by simpa using hab)

/-- Stability of the sort: the subsequence at any fixed score is
untouched. -/
theorem sortByScoreDesc_filter {K : Type} [LinearOrderedField K]
    (l : List (String × K)) (sc : K) :
    (sortByScoreDesc l).filter (fun p => decide (p.2 = sc)) =
      l.filter (fun p => decide (p.2 = sc)) := by
  have hpw : (l.filter (fun p => decide (p.2 = sc))).Pairwise
      (fun a b : String × K => decide (b.2 ≤ a.2) = true) := by
    apply List.pairwise_of_forall_mem_list
    intro a ha b hb
    rw [List.mem_filter] at ha hb
    have ha2 : a.2 = sc := by simpa using ha.2
    have hb2 : b.2 = sc := by simpa using hb.2
    simp [ha2, hb2]
  have hsub : List.Sublist (l.filter (fun p => decide (p.2 = sc))) (sortByScoreDesc l) := by
    show List.Sublist _ (List.mergeSort l (fun a b : String × K => decide (b.2 ≤ a.2)))
    exact List.sublist_mergeSort sortLe_trans sortLe_total hpw (List.filter_sublist l)
  have hsub2 := hsub.filter (fun p => decide (p.2 = sc))
  simp only [List.filter_filter, Bool.and_self] at hsub2
  have hlen : (l.filter (fun p => decide (p.2 = sc))).length =
      ((sortByScoreDesc l).filter (fun p => decide (p.2 = sc))).length :=
    (((sortByScoreDesc_perm l).filter (fun p => decide (p.2 = sc))).length_eq).symm
  exact (hsub2.eq_of_length hlen).symm

/-- Two lists sorted descending by score with the same subsequence at
every score are equal. -/
theorem sorted_eq_of_filters {K : Type} [LinearOrderedField K] :
    ∀ (l1 l2 : List (String × K)),
    l1.Pairwise (fun a b => b.2 ≤ a.2) → l2.Pairwise (fun a b => b.2 ≤ a.2) →
    (∀ sc : K, l1.filter (fun p => decide (p.2 = sc)) =
      l2.filter (fun p => decide (p.2 = sc))) →
    l1 = l2 := by
  intro l1
  induction l1 with
  | nil =>
    intro l2 _ _ hf
    cases l2 with
    | nil => rfl
    | cons b t2 =>
      have hb := hf b.2
      simp [List.filter_cons] at hb
  | cons a t1 ih =>
    intro l2 hp1 hp2 hf
    cases l2 with
    | nil =>
      have hb := hf a.2
      simp [List.filter_cons] at hb
    | cons b t2 =>
      have hall1 : ∀ x ∈ a :: t1, x.2 ≤ a.2 := by
        intro x hx
        rcases List.mem_cons.mp hx with rfl | hx
        · exact le_refl _
        · exact List.rel_of_pairwise_cons hp1 hx
      have hall2 : ∀ x ∈ b :: t2, x.2 ≤ b.2 := by
        intro x hx
        rcases List.mem_cons.mp hx with rfl | hx
        · exact le_refl _
        · exact List.rel_of_pairwise_cons hp2 hx
      have hscore : a.2 = b.2 := by
        by_contra hne
        rcases lt_or_gt_of_ne hne with hlt | hgt
        · have hemp : (a :: t1).filter (fun p => decide (p.2 = b.2)) = [] := by
            rw [List.filter_eq_nil_iff]
            intro x hx
            simp only [decide_eq_true_eq]
            intro heq
            exact absurd (heq ▸ hall1 x hx) (not_le.mpr hlt)
          have hb := hf b.2
          rw [hemp] at hb
          simp [List.filter_cons] at hb
        · have hemp : (b :: t2).filter (fun p => decide (p.2 = a.2)) = [] := by
            rw [List.filter_eq_nil_iff]
            intro x hx
            simp only [decide_eq_true_eq]
            intro heq
            exact absurd (heq ▸ hall2 x hx) (not_le.mpr hgt)
          have hb := hf a.2
          rw [hemp] at hb
          simp [List.filter_cons] at hb
      have hhead : a = b := by
        have hb := hf a.2
        have h1 : decide (a.2 = a.2) = true := by simp
        have h2 : decide (b.2 = a.2) = true := by simp [hscore.symm]
        rw [List.filter_cons, List.filter_cons, if_pos h1, if_pos h2] at hb
        injection hb with h _
      cases hhead
      refine congrArg (List.cons a) (ih t2 hp1.of_cons hp2.of_cons ?_)
      intro sc
      have hb := hf sc
      rw [List.filter_cons, List.filter_cons] at hb
      by_cases hsc : a.2 = sc
      · rw [if_pos (by simp [hsc]), if_pos (by simp [hsc])] at hb
        injection hb with _ h
      · rw [if_neg (by simp [hsc]), if_neg (by simp [hsc])] at hb
        exact hb

theorem sortByScoreDesc_congr {K : Type} [LinearOrderedField K]
    (l1 l2 : List (String × K))
    (h : ∀ sc : K, l1.filter (fun p => decide (p.2 = sc)) =
      l2.filter (fun p => decide (p.2 = sc))) :
    sortByScoreDesc l1 = sortByScoreDesc l2 :=
  sorted_eq_of_filters _ _ (sortByScoreDesc_sorted l1) (sortByScoreDesc_sorted l2)
    (fun sc => (sortByScoreDesc_filter l1 sc).trans
      ((h sc).trans (sortByScoreDesc_filter l2 sc).symm))

theorem scoredDocs_append {K : Type} [LinearOrderedField K] (sqrt : K → K)
    (embed : String → List K) (query : String) (l1 l2 : List String) :
    scoredDocs sqrt embed query (l1 ++ l2) =
      scoredDocs sqrt embed query l1 ++ scoredDocs sqrt embed query l2 := by
  simp [scoredDocs]

/-- search with top_k at least the corpus size keeps the whole sorted
corpus. -/
theorem search_all {K : Type} [LinearOrderedField K] (sqrt : K → K)
    (embed : String → List K) (query : String) (documents : List String) (k : ℕ)
    (hk : documents.length ≤ k) :
    search sqrt embed query documents k =
      sortByScoreDesc (scoredDocs sqrt embed query documents) := by
  unfold search
  apply List.take_of_length_le
  rw [length_sortByScoreDesc]
  simpa [scoredDocs] using hk

/-- The concatenation gathered by batch_search's loop has, at every
score, exactly the subsequence of the globally scored corpus. -/
theorem batchLoop_filters {K : Type} [LinearOrderedField K] (sqrt : K → K)
    (embed : String → List K) (query : String) (c : ℕ) (hc : 0 < c) :
    ∀ (docs : List String), ∃ all, batchLoop sqrt embed query c docs = some all ∧
      ∀ sc : K, all.filter (fun p => decide (p.2 = sc)) =
        (scoredDocs sqrt embed query docs).filter (fun p => decide (p.2 = sc)) := by
  have H : ∀ (n : ℕ) (docs : List String), docs.length ≤ n →
      ∃ all, batchLoop sqrt embed query c docs = some all ∧
      ∀ sc : K, all.filter (fun p => decide (p.2 = sc)) =
        (scoredDocs sqrt embed query docs).filter (fun p => decide (p.2 = sc)) := by
    intro n
    induction n with
    | zero =>
      intro docs hlen
      have hd : docs = [] := List.length_eq_zero.mp (Nat.le_zero.mp hlen)
      subst hd
      refine ⟨[], ?_, ?_⟩
      · simp [batchLoop, hc.ne']
      · intro sc
        simp [scoredDocs]
    | succ n ih =>
      intro docs hlen
      cases docs with
      | nil =>
        refine ⟨[], ?_, ?_⟩
        · simp [batchLoop, hc.ne']
        · intro sc
          simp [scoredDocs]
      | cons d rest =>
        have hdrop : ((d :: rest).drop c).length ≤ n := by
          simp only [List.length_drop, List.length_cons] at *
          omega
        obtain ⟨all, hrun, hfil⟩ := ih ((d :: rest).drop c) hdrop
        refine ⟨search sqrt embed query ((d :: rest).take c)
          ((d :: rest).take c).length ++ all, ?_, ?_⟩
        · simp [batchLoop, hc.ne', hrun]
        · intro sc
          rw [List.filter_append,
            search_all sqrt embed query ((d :: rest).take c) _ (le_refl _),
            sortByScoreDesc_filter, hfil sc, ← List.filter_append]
          congr 1
          rw [← scoredDocs_append]
          congr 1
          exact List.take_append_drop c (d :: rest)
  intro docs
  exact H docs.length docs le_rfl

/-- C1: batch_search with any positive batch size returns exactly the
result of a single global search: per-slice searches keep each whole
slice in stable descending order, so the concatenation has every score
class in original corpus order, and the global stable re-sort then
agrees with sorting the corpus directly. -/
theorem c1_batch_search_equiv {K : Type} [LinearOrderedField K] (sqrt : K → K)
    (embed : String → List K) (query : String) (documents : List String)
    (chunk_size top_k : ℕ) (hc : 0 < chunk_size) :
    batch_search sqrt embed query documents chunk_size top_k =
      some (search sqrt embed query documents top_k) := by
  obtain ⟨all, hrun, hfil⟩ :=
    batchLoop_filters sqrt embed query chunk_size hc documents
  unfold batch_search
  rw [hrun]
  simp only [Option.map_some']
  congr 1
  unfold search
  congr 1
  exact sortByScoreDesc_congr all _ hfil

theorem c1_witness : 0 < 1 ∧
    batch_search (fun x : ℚ => x) (fun _ => [(1 : ℚ)]) "q" ["a", "b", "c"] 1 2 =
      some (search (fun x : ℚ => x) (fun _ => [(1 : ℚ)]) "q" ["a", "b", "c"] 2) :=
  ⟨by decide, c1_batch_search_equiv (fun x : ℚ => x) (fun _ => [(1 : ℚ)])
    "q" ["a", "b", "c"] 1 2 (by decide)⟩

/-- C6: search returns at most min(top_k, corpus size) items, sorted
non-increasing by score; ties keep original corpus order (the score
class of the result is a front segment of the corpus's score class, in
order); and top_k at least the corpus size returns the whole corpus
ranked, without error (the function is total). -/
theorem c6_search_spec {K : Type} [LinearOrderedField K] (sqrt : K → K)
    (embed : String → List K) (query : String) (documents : List String)
    (top_k : ℕ) :
    (search sqrt embed query documents top_k).length ≤ min top_k documents.length ∧
    (search sqrt embed query documents top_k).Pairwise (fun a b => b.2 ≤ a.2) ∧
    (∀ sc : K, (search sqrt embed query documents top_k).filter
        (fun p => decide (p.2 = sc)) <+:
      (scoredDocs sqrt embed query documents).filter (fun p => decide (p.2 = sc))) ∧
    (documents.length ≤ top_k →
      (search sqrt embed query documents top_k).Perm
        (scoredDocs sqrt embed query documents)) := by
  refine ⟨?_, ?_, ?_, ?_⟩
  · unfold search
    rw [List.length_take, length_sortByScoreDesc]
    simp [scoredDocs]
  · unfold search
    exact List.Pairwise.sublist (List.take_sublist _ _) (sortByScoreDesc_sorted _)
  · intro sc
    unfold search
    have hp : (sortByScoreDesc (scoredDocs sqrt embed query documents)).take top_k <+:
        sortByScoreDesc (scoredDocs sqrt embed query documents) :=
      ⟨_, List.take_append_drop top_k _⟩
    have hfp := List.IsPrefix.filter (fun p => decide (p.2 = sc)) hp
    rw [sortByScoreDesc_filter] at hfp
    exact hfp
  · intro hk
    rw [search_all sqrt embed query documents top_k hk]
    exact sortByScoreDesc_perm _

theorem c6_witness : (["a", "b"] : List String).length ≤ 5 ∧
    (search (fun x : ℚ => x) (fun _ => [(1 : ℚ)]) "q" ["a", "b"] 5).Perm
      (scoredDocs (fun x : ℚ => x) (fun _ => [(1 : ℚ)]) "q" ["a", "b"]) :=
  ⟨by decide, (c6_search_spec (fun x : ℚ => x) (fun _ => [(1 : ℚ)])
    "q" ["a", "b"] 5).2.2.2 (by decide)⟩

/-- C5 counterexample: the module-level `similarity` of embeddings.py
has no zero-norm guard.  On the vectors [0.0] and [1.0] its denominator
is 0 (the square roots taken are of 0 and 1, where floating-point sqrt
is exact), so the division yields NaN (modelled `none`), not 0.0. -/
theorem c5_counterexample :
    similarity (fun x : ℚ => x) [(0 : ℚ)] [(1 : ℚ)] = none ∧
    similarity (fun x : ℚ => x) [(0 : ℚ)] [(1 : ℚ)] ≠ some 0 := by
  constructor <;> simp [similarity, np_linalg_norm, np_dot]

/-- C5 (amended): on equal-length vectors with a zero norm,
EmbeddingsManager.cosine_similarity returns exactly 0.0, but the
module-level similarity divides by zero and yields a non-finite value
(NaN), not 0.0. -/
theorem c5_zero_norm {K : Type} [LinearOrderedField K] (sqrt : K → K)
    (v1 v2 : List K) (_hlen : v1.length = v2.length)
    (h : np_linalg_norm sqrt v1 = 0 ∨ np_linalg_norm sqrt v2 = 0) :
    cosine_similarity sqrt v1 v2 = 0 ∧ similarity sqrt v1 v2 = none := by
  constructor
  · unfold cosine_similarity
    rw [if_pos h]
  · have hz : np_linalg_norm sqrt v1 * np_linalg_norm sqrt v2 = 0 := by
      rcases h with h | h <;> simp [h]
    unfold similarity
    rw [if_pos hz]

theorem c5_witness :
    (([(0 : ℚ), 0] : List ℚ).length = ([(3 : ℚ), 4] : List ℚ).length ∧
      (np_linalg_norm (fun x : ℚ => x) [(0 : ℚ), 0] = 0 ∨
        np_linalg_norm (fun x : ℚ => x) [(3 : ℚ), 4] = 0)) ∧
    (cosine_similarity (fun x : ℚ => x) [(0 : ℚ), 0] [(3 : ℚ), 4] = 0 ∧
      similarity (fun x : ℚ => x) [(0 : ℚ), 0] [(3 : ℚ), 4] = none) :=
  ⟨⟨by decide, Or.inl (by simp [np_linalg_norm, np_dot])⟩,
    c5_zero_norm (fun x : ℚ => x) _ _ (by decide)
      (Or.inl (by simp [np_linalg_norm, np_dot]))⟩

/-- C9 counterexample: when the model cannot be loaded, embed_text of
embeddings.py silently returns the empty list (no error is raised),
while EmbeddingsManager.__init__ of search.py re-raises the failure. -/
theorem c9_counterexample :
    embed_text (Except.error "load failed" : Except String Unit)
      (fun _ _ => [(1 : ℚ)]) "hello" = [] ∧
    EmbeddingsManager.init (Except.error "load failed" : Except String Unit) =
      Except.error "load failed" :=
  ⟨rfl, rfl⟩

/-- C9 (amended): EmbeddingsManager.__init__ propagates the load
failure, but embed_text and embed_texts of embeddings.py return the
empty list when the model cannot be loaded, never an error. -/
theorem c9_model_unavailable {K Emb : Type} (e : String)
    (encode : Emb → String → List K) (encodeB : Emb → List String → List (List K))
    (text : String) (texts : List String) :
    embed_text (Except.error e) encode text = [] ∧
    embed_texts (Except.error e) encodeB texts = [] ∧
    EmbeddingsManager.init (Except.error e : Except String Emb) = Except.error e ∧
    ∀ m : Emb, EmbeddingsManager.init (Except.ok m : Except String Emb) =
      Except.ok ⟨m⟩ :=
  ⟨rfl, rfl, rfl, fun _ => rfl⟩
